import Mathlib

/-!
# Silence-cut pipeline: a shallow embedding

Definitions translated from `cut_silence_to_fcpxml.py`: the marker parser
(`parse_silences`), the interval normalizer (`merge_overlaps`), the
keep-segment resolver (`invert_to_keeps`), the timecode mapper
(`fps_to_timebase_ntsc_and_real_fps`, `sec_to_frames`), the aspect-ratio
parser (`sar_to_par`), and the clip-item loop of the timeline document
builder (`clip_items`).

Times in seconds and frame rates are modelled by `ℚ`: the source computes
with Python floats, whose rounding plays no role in the claims settled here.
-/

namespace CutSilence

/-- `SilenceInterval` of the source: `start`/`end` in seconds.  The `end`
field (`stop` here, since `end` is reserved) is `none` when the source stores
`math.inf` (an unterminated trailing silence). -/
structure SilenceInterval where
  start : ℚ
  stop : Option ℚ
deriving DecidableEq, Repr

/-- One line of the detector's stderr, pre-tokenized: the source classifies
each line with the `silence_start:`/`silence_end:` regexes (first match wins,
a line matching neither is skipped); the regex itself is outside the scope of
the claims, so a line enters the model as the marker it matched. -/
inductive Marker where
  | silenceStart (t : ℚ)
  | silenceEnd (t : ℚ)
  | noise
deriving DecidableEq, Repr

/-- Python's stable `list.sort(key=lambda x: x.start)`, modelled by the
stable `insertionSort` on the same key. -/
def sort_by_start (l : List SilenceInterval) : List SilenceInterval :=
  List.insertionSort (fun a b => a.start ≤ b.start) l

/-- The loop body of `parse_silences`: state is the pending-starts queue and
the intervals accumulated so far.  A start marker appends to the queue; an
end marker with a nonempty queue pops its head `s` (`starts.pop(0)`) and
keeps `[s, e]` only when `e > s`; an end marker with an empty queue and a
non-matching line change nothing. -/
def parse_step (st : List ℚ × List SilenceInterval) (m : Marker) :
    List ℚ × List SilenceInterval :=
  match m with
  | .silenceStart t => (st.1 ++ [t], st.2)
  | .silenceEnd t =>
    match st.1 with
    | [] => st
    | s :: rest => if s < t then (rest, st.2 ++ [⟨s, some t⟩]) else (rest, st.2)
  | .noise => st

/-- `parse_silences`: fold the loop over the lines, turn every start still
pending into `[start, +∞)`, sort by start. -/
def parse_silences (lines : List Marker) : List SilenceInterval :=
  let st := lines.foldl parse_step ([], [])
  sort_by_start (st.2 ++ st.1.map (fun s => ⟨s, none⟩))

/-- The Marker Parser as the spec's §4.1 words it (for comparison with
`parse_silences`): keep a FIFO queue of pending starts; enqueue on a start
marker; on an end marker dequeue the oldest pending start and form
`[start, end]`, discarded when `end <= start`; an end marker with no pending
start is ignored; after the scan each remaining pending start becomes
`[start, +∞)`; sort by start ascending. -/
def fifo_pair (pending : List ℚ) : List Marker → List SilenceInterval
  | [] => pending.map fun s => ⟨s, none⟩
  | Marker.silenceStart t :: rest => fifo_pair (pending ++ [t]) rest
  | Marker.silenceEnd t :: rest =>
    match pending with
    | [] => fifo_pair [] rest
    | s :: ps => if t ≤ s then fifo_pair ps rest else ⟨s, some t⟩ :: fifo_pair ps rest
  | Marker.noise :: rest => fifo_pair pending rest

/-- Spec-side Marker Parser: FIFO pairing then sort by start. -/
def parse_silences_spec (ms : List Marker) : List SilenceInterval :=
  sort_by_start (fifo_pair [] ms)

/-- The clamp step of `merge_overlaps`: `s = max(0, start)`,
`e = duration if isinf(end) else min(duration, end)`, kept only when
`e > s`. -/
def clamp_iv (duration : ℚ) (iv : SilenceInterval) : Option (ℚ × ℚ) :=
  let s := max 0 iv.start
  let e := match iv.stop with
    | none => duration
    | some e => min duration e
  if s < e then some (s, e) else none

/-- The merge loop of `merge_overlaps`, carrying the currently open interval
(`merged[-1]` in the source): a next interval starting at or before the open
end extends it (`last.end = max(last.end, iv.end)`), otherwise the open
interval is emitted and the next one opens. -/
def merge_chain (cur : ℚ × ℚ) : List (ℚ × ℚ) → List (ℚ × ℚ)
  | [] => [cur]
  | iv :: rest =>
    if iv.1 ≤ cur.2 then merge_chain (cur.1, max cur.2 iv.2) rest
    else cur :: merge_chain iv rest

/-- Entry into the merge loop: the first interval opens. -/
def merge_core : List (ℚ × ℚ) → List (ℚ × ℚ)
  | [] => []
  | iv :: rest => merge_chain iv rest

/-- Python's stable `fixed.sort(key=lambda x: x.start)` on clamped pairs. -/
def sort_pairs (l : List (ℚ × ℚ)) : List (ℚ × ℚ) :=
  List.insertionSort (fun a b => a.1 ≤ b.1) l

/-- `merge_overlaps` with its output as plain pairs (every interval it
returns has a finite end): clamp, sort by start, merge left to right. -/
def merge_overlaps_core (intervals : List SilenceInterval) (duration : ℚ) :
    List (ℚ × ℚ) :=
  merge_core (sort_pairs (intervals.filterMap (clamp_iv duration)))

/-- `merge_overlaps` at the source's type: the merged pairs re-packed as
`SilenceInterval`s (all ends finite). -/
def merge_overlaps (intervals : List SilenceInterval) (duration : ℚ) :
    List SilenceInterval :=
  (merge_overlaps_core intervals duration).map fun p => ⟨p.1, some p.2⟩

/-- The padding step of `invert_to_keeps`: `rs = max(0, start - pad)`,
`re = duration if isinf(end) else min(duration, end + pad)`, kept when
`re > rs`. -/
def pad_clamp (duration pad : ℚ) (iv : SilenceInterval) : Option SilenceInterval :=
  let rs := max 0 (iv.start - pad)
  let re := match iv.stop with
    | none => duration
    | some e => min duration (e + pad)
  if rs < re then some ⟨rs, some re⟩ else none

/-- The removal set of `invert_to_keeps`: padded silences re-merged by
`merge_overlaps`. -/
def removal_set (silences : List SilenceInterval) (duration pad : ℚ) :
    List (ℚ × ℚ) :=
  merge_overlaps_core (silences.filterMap (pad_clamp duration pad)) duration

/-- The walk of `invert_to_keeps` over the removal set: from the cursor, a
removal starting strictly after it leaves the candidate keep
`[cursor, removal.start)`, kept when its length is `>= min_keep`; the cursor
then advances to `max(cursor, removal.end)`.  Returns the keeps emitted by
the loop and the final cursor. -/
def keep_walk (min_keep : ℚ) : ℚ → List (ℚ × ℚ) → List (ℚ × ℚ) × ℚ
  | cursor, [] => ([], cursor)
  | cursor, iv :: rest =>
    let tail := keep_walk min_keep (max cursor iv.2) rest
    if cursor < iv.1 ∧ min_keep ≤ iv.1 - cursor then ((cursor, iv.1) :: tail.1, tail.2)
    else tail

/-- `invert_to_keeps`: pad and merge the silences into the removal set, walk
it from cursor 0, then emit the trailing keep `[cursor, duration)` when
`duration > cursor` and `duration - cursor >= min_keep`. -/
def invert_to_keeps (silences : List SilenceInterval) (duration pad min_keep : ℚ) :
    List (ℚ × ℚ) :=
  let w := keep_walk min_keep 0 (removal_set silences duration pad)
  if w.2 < duration ∧ min_keep ≤ duration - w.2 then w.1 ++ [(w.2, duration)] else w.1

/-- Python's `round()` on a rational value: round half to even. -/
def pyRound (q : ℚ) : ℤ :=
  if q - ⌊q⌋ < 1/2 then ⌊q⌋
  else if 1/2 < q - ⌊q⌋ then ⌊q⌋ + 1
  else if 2 ∣ ⌊q⌋ then ⌊q⌋ else ⌊q⌋ + 1

/-- `sec_to_frames`: `int(round(sec * fps_real))`. -/
def sec_to_frames (sec fps_real : ℚ) : ℤ :=
  pyRound (sec * fps_real)

/-- `fps_to_timebase_ntsc_and_real_fps`: NTSC classification with tolerance
0.05 against both the exact fraction and the two-decimal approximation,
otherwise the rounded integer timebase with a floor of 1. -/
def fps_to_timebase_ntsc_and_real_fps (fps : ℚ) : ℤ × Bool × ℚ :=
  if |fps - 30000 / 1001| < 0.05 ∨ |fps - 29.97| < 0.05 then (30, true, 30 / 1.001)
  else if |fps - 60000 / 1001| < 0.05 ∨ |fps - 59.94| < 0.05 then (60, true, 60 / 1.001)
  else
    let tb : ℤ := max 1 (pyRound fps)
    (tb, false, (tb : ℚ))

/-- Everything after the first colon pairs with everything before it:
Python's `sar.split(":", 1)`, `none` when the string holds no colon. -/
def split_first_colon : List Char → Option (List Char × List Char)
  | [] => none
  | c :: rest =>
    if c = ':' then some ([], rest)
    else
      match split_first_colon rest with
      | none => none
      | some (a, b) => some (c :: a, b)

/-- The value of a nonempty all-digit character run, `none` otherwise. -/
def digits_val (cs : List Char) : Option ℕ :=
  if cs ≠ [] ∧ cs.all Char.isDigit then
    some (cs.foldl (fun n c => 10 * n + (c.toNat - 48)) 0)
  else none

/-- Python's `int(str)`: surrounding whitespace stripped, one optional sign,
then decimal digits; anything else raises (here: `none`).  Python's
underscore digit grouping is not modelled (no aspect-ratio string uses it). -/
def py_int (cs : List Char) : Option ℤ :=
  let t := ((cs.dropWhile Char.isWhitespace).reverse.dropWhile Char.isWhitespace).reverse
  match t with
  | '-' :: rest => (digits_val rest).map (fun n => -(n : ℤ))
  | '+' :: rest => (digits_val rest).map (fun n => (n : ℤ))
  | _ => (digits_val t).map (fun n => (n : ℤ))

/-- `sar_to_par`: no colon (or empty string) gives `(1, 1)`; otherwise split
at the first colon and parse both parts as Python ints, any parse failure
(the source's bare `except`) or a non-positive component giving `(1, 1)`. -/
def sar_to_par (sar : String) : ℤ × ℤ :=
  match split_first_colon sar.data with
  | none => (1, 1)
  | some (a, b) =>
    match py_int a, py_int b with
    | some ai, some bi => if ai ≤ 0 ∨ bi ≤ 0 then (1, 1) else (ai, bi)
    | _, _ => (1, 1)

/-- The "reduced integer ratio" of a parsed aspect-ratio pair, as the spec's
§4.5 words it (for comparison with what `sar_to_par` returns). -/
def spec_reduced_par (a b : ℤ) : ℤ × ℤ :=
  (a / Int.gcd a b, b / Int.gcd a b)

/-- The numeric content of one `<clipitem>` pair emitted by `make_fcp7_xml`:
the ids of the linked video/audio items and the timeline `start`/`end` and
source `in`/`out` frame numbers. -/
structure ClipItem where
  vId : String
  aId : String
  startF : ℤ
  endF : ℤ
  inF : ℤ
  outF : ℤ
deriving DecidableEq, Repr

/-- The clip-item loop of `make_fcp7_xml`: `enumerate(keeps, start=1)` with a
running timeline cursor; `seg_dur = max(0, ke - ks)` and segments with
`seg_dur <= 0` are skipped (the index still advances); frames come from
`sec_to_frames`; ids are `clipitem-v{i}` / `clipitem-a{i}`; the cursor
advances by `seg_dur`. -/
def clip_items_from (fps_real : ℚ) : ℕ → ℚ → List (ℚ × ℚ) → List ClipItem
  | _, _, [] => []
  | i, cursor, (ks, ke) :: rest =>
    let seg_dur := max 0 (ke - ks)
    if seg_dur ≤ 0 then clip_items_from fps_real (i + 1) cursor rest
    else
      { vId := "clipitem-v" ++ toString i
        aId := "clipitem-a" ++ toString i
        startF := sec_to_frames cursor fps_real
        endF := sec_to_frames (cursor + seg_dur) fps_real
        inF := sec_to_frames ks fps_real
        outF := sec_to_frames ke fps_real } :: clip_items_from fps_real (i + 1) (cursor + seg_dur) rest

/-- The clip items of `make_fcp7_xml`, from index 1 and timeline cursor 0. -/
def clip_items (keeps : List (ℚ × ℚ)) (fps_real : ℚ) : List ClipItem :=
  clip_items_from fps_real 1 0 keeps

/-- Every interval of the list lies in `[0, duration]` and is proper. -/
def InBounds (duration : ℚ) (l : List (ℚ × ℚ)) : Prop :=
  ∀ p ∈ l, 0 ≤ p.1 ∧ p.1 < p.2 ∧ p.2 ≤ duration

/-- Every earlier interval of the list ends strictly before a later one
starts (the Disjoint Interval Set shape). -/
def Separated (l : List (ℚ × ℚ)) : Prop :=
  List.Pairwise (fun a b => a.2 < b.1) l

instance : IsTotal SilenceInterval (fun a b => a.start ≤ b.start) :=
  ⟨fun _ _ => le_total _ _⟩

instance : IsTrans SilenceInterval (fun a b => a.start ≤ b.start) :=
  ⟨fun _ _ _ h1 h2 => le_trans h1 h2⟩

instance : IsTotal (ℚ × ℚ) (fun a b => a.1 ≤ b.1) :=
  ⟨fun _ _ => le_total _ _⟩

instance : IsTrans (ℚ × ℚ) (fun a b => a.1 ≤ b.1) :=
  ⟨fun _ _ _ h1 h2 => le_trans h1 h2⟩

theorem pyRound_le_floor_add_one (q : ℚ) : pyRound q ≤ ⌊q⌋ + 1 := by
  unfold pyRound
  split_ifs <;> omega

theorem floor_le_pyRound (q : ℚ) : ⌊q⌋ ≤ pyRound q := by
  unfold pyRound
  split_ifs <;> omega

theorem pyRound_mono {a b : ℚ} (h : a ≤ b) : pyRound a ≤ pyRound b := by
  have hf : ⌊a⌋ ≤ ⌊b⌋ := Int.floor_mono h
  rcases eq_or_lt_of_le hf with hEq | hLt
  · have hfr : a - (⌊a⌋ : ℚ) ≤ b - (⌊a⌋ : ℚ) := by linarith
    unfold pyRound
    rw [← hEq]
    split_ifs <;> first | omega | linarith
  · have h1 := pyRound_le_floor_add_one a
    have h2 := floor_le_pyRound b
    omega

/-- C10: the NTSC tolerance windows are asymmetric at the integer rates: 30
lies within 0.05 of 30000/1001 and is classified drop-frame with timebase 30
and effective rate 30/1.001, while 60 lies more than 0.05 from 60000/1001
and is classified non-drop-frame with timebase 60 and effective rate 60. -/
theorem ntsc_window_asymmetry :
    |(30 : ℚ) - 30000 / 1001| < 0.05 ∧ (0.05 : ℚ) < |(60 : ℚ) - 60000 / 1001| ∧
    fps_to_timebase_ntsc_and_real_fps 30 = (30, true, 30 / 1.001) ∧
    fps_to_timebase_ntsc_and_real_fps 60 = (60, false, 60) := by
  refine ⟨?_, ?_, ?_, ?_⟩
  · rw [abs_lt]
    constructor <;> norm_num
  · rw [abs_of_pos (show (0 : ℚ) < 60 - 60000 / 1001 by norm_num)]
    norm_num
  · norm_num [fps_to_timebase_ntsc_and_real_fps, abs_lt]
  · norm_num [fps_to_timebase_ntsc_and_real_fps, abs_lt, pyRound]

/-- C9 counterexample: on the aspect-ratio string "2:4" the code returns the
parsed pair (2, 4) as-is, not the reduced integer ratio (1, 2) the claim
prescribes. -/
theorem sar_to_par_cex :
    sar_to_par "2:4" = (2, 4) ∧ sar_to_par "2:4" ≠ spec_reduced_par 2 4 := by
  constructor <;> decide

/-- C9 (amended): the pixel aspect ratio is the parsed integer pair exactly
as given (not reduced: "2:4" yields (2, 4)); both components are always
positive, and every degenerate or unparsable ratio — empty, missing
separator, non-integer part, zero or negative component — yields the default
(1, 1). -/
theorem sar_to_par_behavior :
    (∀ s : String, 0 < (sar_to_par s).1 ∧ 0 < (sar_to_par s).2) ∧
    sar_to_par "4:3" = (4, 3) ∧ sar_to_par "2:4" = (2, 4) ∧
    sar_to_par "" = (1, 1) ∧ sar_to_par "4" = (1, 1) ∧ sar_to_par "x:3" = (1, 1) ∧
    sar_to_par "4.0:3" = (1, 1) ∧ sar_to_par "0:1" = (1, 1) ∧
    sar_to_par "-2:3" = (1, 1) := by
  refine ⟨?_, by decide, by decide, by decide, by decide, by decide, by decide,
    by decide, by decide⟩
  intro s
  unfold sar_to_par
  rcases hsp : split_first_colon s.data with _ | ⟨a, b⟩
  · norm_num
  · rcases ha : py_int a with _ | ai <;> rcases hb : py_int b with _ | bi <;>
      simp only [ha, hb] <;> try norm_num
    split_ifs with hc
    · norm_num
    · push_neg at hc
      exact ⟨hc.1, hc.2⟩

/-- C3 counterexample: on a structurally inconsistent input (negative
duration) the resolver silently returns an ordinary, empty result rather
than failing, and the aspect-ratio parser catches an unparsable ratio and
silently substitutes the default. -/
theorem core_no_fail_fast_cex :
    invert_to_keeps [⟨1, some 2⟩] (-1) 0 0 = [] ∧ sar_to_par "x:1" = (1, 1) := by
  constructor
  · norm_num [invert_to_keeps, removal_set, keep_walk, merge_overlaps_core, merge_core,
      merge_chain, sort_pairs, List.insertionSort, List.orderedInsert, clamp_iv, pad_clamp,
      List.filterMap]
  · decide

/-- C3 (amended): the core performs no fail-fast validation: a structurally
inconsistent non-positive duration flows through the Keep-Segment Resolver
and yields a defined, degenerate result (no keep segments) instead of an
error naming the parameter. -/
theorem core_no_fail_fast (silences : List SilenceInterval) (pad min_keep d : ℚ)
    (hd : d ≤ 0) : invert_to_keeps silences d pad min_keep = [] := by
  have hclamp : silences.filterMap (pad_clamp d pad) = [] := by
    rw [List.filterMap_eq_nil_iff]
    intro iv _
    rcases iv with ⟨s, e⟩
    rcases e with _ | e
    · simp only [pad_clamp, ite_eq_right_iff]
      intro hlt
      have h0 : (0 : ℚ) ≤ max 0 (s - pad) := le_max_left 0 _
      exact absurd (lt_of_le_of_lt h0 hlt) (not_lt.mpr hd)
    · simp only [pad_clamp, ite_eq_right_iff]
      intro hlt
      have h0 : (0 : ℚ) ≤ max 0 (s - pad) := le_max_left 0 _
      have h1 : min d (e + pad) ≤ d := min_le_left _ _
      exact absurd (lt_of_le_of_lt h0 hlt) (not_lt.mpr (le_trans h1 hd))
  unfold invert_to_keeps removal_set
  rw [hclamp]
  have hw : keep_walk min_keep 0 (merge_overlaps_core [] d) = ([], 0) := rfl
  simp only [hw]
  rw [if_neg]
  rintro ⟨h1, _⟩
  exact absurd h1 (not_lt.mpr hd)

/-- C3 witness: a concrete negative duration yields the degenerate empty
result. -/
theorem core_no_fail_fast_witness : invert_to_keeps [] (-1) 0 0 = [] :=
  core_no_fail_fast [] 0 0 (-1) (by norm_num)

/-- C2 counterexample: with silences [(5, 10)], duration 10, pad 0 and
min_keep 0 the walk ends with cursor 10, so duration - cursor = 0 ≥ min_keep
holds, yet no trailing keep segment [10, 10) is emitted: the claimed "if and
only if" fails. -/
theorem trailing_keep_cex :
    ¬ ((invert_to_keeps [⟨5, some 10⟩] 10 0 0 =
        (keep_walk 0 0 (removal_set [⟨5, some 10⟩] 10 0)).1 ++
          [((keep_walk 0 0 (removal_set [⟨5, some 10⟩] 10 0)).2, 10)]) ↔
      (0 : ℚ) ≤ 10 - (keep_walk 0 0 (removal_set [⟨5, some 10⟩] 10 0)).2) := by
  have h1 : removal_set [⟨5, some 10⟩] 10 0 = [(5, 10)] := by
    norm_num [removal_set, merge_overlaps_core, merge_core, merge_chain, sort_pairs,
      List.insertionSort, List.orderedInsert, clamp_iv, pad_clamp, List.filterMap]
  have h2 : invert_to_keeps [⟨5, some 10⟩] 10 0 0 = [(0, 5)] := by
    norm_num [invert_to_keeps, removal_set, keep_walk, merge_overlaps_core, merge_core,
      merge_chain, sort_pairs, List.insertionSort, List.orderedInsert, clamp_iv, pad_clamp,
      List.filterMap]
  have h3 : keep_walk (0 : ℚ) 0 [((5 : ℚ), (10 : ℚ))] = ([(0, 5)], 10) := by
    norm_num [keep_walk]
  rw [h1, h2, h3]
  norm_num

/-- C2 (amended): after the walk over the removal set, the trailing keep
segment [cursor, duration) is appended if and only if duration > cursor AND
duration - cursor ≥ min_keep (the claimed condition alone does not suffice
when duration = cursor and min_keep ≤ 0). -/
theorem trailing_keep_iff (s : List SilenceInterval) (d p m : ℚ) :
    (invert_to_keeps s d p m =
      (keep_walk m 0 (removal_set s d p)).1 ++
        [((keep_walk m 0 (removal_set s d p)).2, d)]) ↔
    ((keep_walk m 0 (removal_set s d p)).2 < d ∧
      m ≤ d - (keep_walk m 0 (removal_set s d p)).2) := by
  unfold invert_to_keeps
  dsimp only
  split_ifs with hc
  · exact ⟨fun _ => hc, fun _ => rfl⟩
  · constructor
    · intro h
      exfalso
      have hlen := congrArg List.length h
      simp at hlen
    · intro h
      exact absurd h hc

/-- C4: every rate within 0.05 of 30000/1001 or of 29.97 maps to timebase
30, drop-frame, effective rate 30/1.001; every rate within 0.05 of
60000/1001 or of 59.94 maps to timebase 60, drop-frame, effective rate
60/1.001; any other rate maps to the rounded timebase with a floor of 1,
non-drop-frame, with that timebase as effective rate; and at the 29.97
classification one second converts to exactly 30 frames. -/
theorem timecode_classification (fps : ℚ) :
    ((|fps - 30000 / 1001| < 0.05 ∨ |fps - 29.97| < 0.05) →
      fps_to_timebase_ntsc_and_real_fps fps = (30, true, 30 / 1.001)) ∧
    ((|fps - 60000 / 1001| < 0.05 ∨ |fps - 59.94| < 0.05) →
      fps_to_timebase_ntsc_and_real_fps fps = (60, true, 60 / 1.001)) ∧
    (¬ (|fps - 30000 / 1001| < 0.05 ∨ |fps - 29.97| < 0.05) →
      ¬ (|fps - 60000 / 1001| < 0.05 ∨ |fps - 59.94| < 0.05) →
      fps_to_timebase_ntsc_and_real_fps fps =
        (max 1 (pyRound fps), false, ((max 1 (pyRound fps) : ℤ) : ℚ))) ∧
    sec_to_frames 1 (30 / 1.001) = 30 := by
  refine ⟨?_, ?_, ?_, ?_⟩
  · intro h
    unfold fps_to_timebase_ntsc_and_real_fps
    rw [if_pos h]
  · intro h
    have hgt : (59 : ℚ) < fps := by
      rcases h with h | h <;> (rw [abs_lt] at h; norm_num at h; linarith [h.1])
    have h30 : ¬ (|fps - 30000 / 1001| < 0.05 ∨ |fps - 29.97| < 0.05) := by
      push_neg
      have ha := le_abs_self (fps - 30000 / 1001)
      have hb := le_abs_self (fps - 29.97)
      constructor <;> (norm_num; linarith)
    unfold fps_to_timebase_ntsc_and_real_fps
    rw [if_neg h30, if_pos h]
  · intro h1 h2
    unfold fps_to_timebase_ntsc_and_real_fps
    rw [if_neg h1, if_neg h2]
  · show pyRound (1 * (30 / 1.001)) = 30
    norm_num [pyRound]

/-- C6 counterexample: the single clip pair built from one keep segment
carries the identifiers "clipitem-v1"/"clipitem-a1", not the
"video-1"/"audio-1" the claim prescribes. -/
theorem clip_ids_cex :
    (clip_items [(0, 1)] 30).map (fun c => (c.vId, c.aId)) =
      [("clipitem-v1", "clipitem-a1")] ∧
    ("clipitem-v1" : String) ≠ "video-1" ∧ ("clipitem-a1" : String) ≠ "audio-1" := by
  refine ⟨?_, by decide, by decide⟩
  norm_num [clip_items, clip_items_from]
  exact ⟨rfl, rfl⟩

theorem clip_items_from_ids (fps : ℚ) (keeps : List (ℚ × ℚ)) :
    ∀ (j : ℕ) (cursor : ℚ), (∀ p ∈ keeps, p.1 < p.2) →
    ∀ i c, (clip_items_from fps j cursor keeps).get? i = some c →
      c.vId = "clipitem-v" ++ toString (j + i) ∧
      c.aId = "clipitem-a" ++ toString (j + i) := by
  induction keeps with
  | nil =>
    intro j cursor _ i c hc
    simp [clip_items_from] at hc
  | cons p rest ih =>
    obtain ⟨ks, ke⟩ := p
    intro j cursor hk i c hc
    have hp : ks < ke := hk (ks, ke) (by simp)
    have hseg : ¬ (max 0 (ke - ks) ≤ 0) := by
      push_neg
      exact lt_max_of_lt_right (by linarith)
    have hrest : ∀ q ∈ rest, q.1 < q.2 := fun q hq => hk q (List.mem_cons_of_mem _ hq)
    rw [show clip_items_from fps j cursor ((ks, ke) :: rest) =
        (if max 0 (ke - ks) ≤ 0 then clip_items_from fps (j + 1) cursor rest
         else
          { vId := "clipitem-v" ++ toString j
            aId := "clipitem-a" ++ toString j
            startF := sec_to_frames cursor fps
            endF := sec_to_frames (cursor + max 0 (ke - ks)) fps
            inF := sec_to_frames ks fps
            outF := sec_to_frames ke fps } ::
            clip_items_from fps (j + 1) (cursor + max 0 (ke - ks)) rest) from rfl,
      if_neg hseg] at hc
    cases i with
    | zero =>
      rw [List.get?_cons_zero] at hc
      cases hc
      exact ⟨rfl, rfl⟩
    | succ n =>
      rw [List.get?_cons_succ] at hc
      have := ih (j + 1) (cursor + max 0 (ke - ks)) hrest n c hc
      have hjn : j + 1 + n = j + (n + 1) := by omega
      rw [hjn] at this
      exact this

/-- C6 (amended): the clip identifiers assigned to the i-th (1-based) video
and audio clip items are exactly "clipitem-v{i}" and "clipitem-a{i}" (not
"video-{i}"/"audio-{i}"), for keep segments of strictly positive length. -/
theorem clip_ids_scheme (keeps : List (ℚ × ℚ)) (fps_real : ℚ)
    (hk : ∀ p ∈ keeps, p.1 < p.2) (i : ℕ)
    (h : i < (clip_items keeps fps_real).length) :
    ((clip_items keeps fps_real).get ⟨i, h⟩).vId = "clipitem-v" ++ toString (i + 1) ∧
    ((clip_items keeps fps_real).get ⟨i, h⟩).aId = "clipitem-a" ++ toString (i + 1) := by
  have hq : (clip_items keeps fps_real).get? i =
      some ((clip_items keeps fps_real).get ⟨i, h⟩) := List.get?_eq_get h
  have := clip_items_from_ids fps_real keeps 1 0 hk i _ hq
  have h1i : 1 + i = i + 1 := by omega
  rw [h1i] at this
  exact this

theorem clip_items_one_len : 0 < (clip_items [((0 : ℚ), (1 : ℚ))] 30).length := by
  norm_num [clip_items, clip_items_from]

/-- C6 witness: the first clip pair of a one-segment timeline carries the
identifiers clipitem-v1 and clipitem-a1. -/
theorem clip_ids_scheme_witness :
    ((clip_items [((0 : ℚ), (1 : ℚ))] 30).get ⟨0, clip_items_one_len⟩).vId =
      "clipitem-v" ++ toString (0 + 1) ∧
    ((clip_items [((0 : ℚ), (1 : ℚ))] 30).get ⟨0, clip_items_one_len⟩).aId =
      "clipitem-a" ++ toString (0 + 1) :=
  clip_ids_scheme [(0, 1)] 30 (by norm_num) 0 clip_items_one_len

theorem foldl_parse_step_eq_fifo (ms : List Marker) :
    ∀ (pending : List ℚ) (acc : List SilenceInterval),
      (ms.foldl parse_step (pending, acc)).2 ++
        ((ms.foldl parse_step (pending, acc)).1).map (fun s => ⟨s, none⟩) =
      acc ++ fifo_pair pending ms := by
  induction ms with
  | nil =>
    intro pending acc
    simp [fifo_pair]
  | cons m rest ih =>
    intro pending acc
    cases m with
    | silenceStart t =>
      rw [List.foldl_cons]
      exact ih (pending ++ [t]) acc
    | silenceEnd t =>
      rw [List.foldl_cons]
      cases pending with
      | nil => exact ih [] acc
      | cons s ps =>
        have hf : fifo_pair (s :: ps) (Marker.silenceEnd t :: rest) =
            (if t ≤ s then fifo_pair ps rest
             else ⟨s, some t⟩ :: fifo_pair ps rest) := rfl
        by_cases hst : s < t
        · have hstep : parse_step (s :: ps, acc) (Marker.silenceEnd t) =
              (ps, acc ++ [⟨s, some t⟩]) := by
            simp [parse_step, hst]
          rw [hstep, ih ps (acc ++ [(⟨s, some t⟩ : SilenceInterval)]), hf, if_neg (not_le.mpr hst)]
          simp
        · have hstep : parse_step (s :: ps, acc) (Marker.silenceEnd t) = (ps, acc) := by
            simp [parse_step, hst]
          rw [hstep, ih ps acc, hf, if_pos (not_lt.mp hst)]
    | noise =>
      rw [List.foldl_cons]
      exact ih pending acc

/-- C7: the Marker Parser pairs markers through a FIFO queue exactly as the
spec describes — each end marker matches the oldest pending start, a pair
with end <= start is discarded, an end marker with no pending start is
ignored, every unmatched start becomes an interval [start, +∞) — and the
returned sequence is sorted by start ascending. -/
theorem parse_silences_matches_spec (ms : List Marker) :
    parse_silences ms = parse_silences_spec ms ∧
    List.Sorted (fun a b => a.start ≤ b.start) (parse_silences ms) := by
  constructor
  · unfold parse_silences parse_silences_spec
    dsimp only
    rw [foldl_parse_step_eq_fifo ms [] [], List.nil_append]
  · unfold parse_silences sort_by_start
    exact List.sorted_insertionSort _ _

theorem merge_chain_spec (d : ℚ) :
    ∀ (l : List (ℚ × ℚ)) (cur : ℚ × ℚ),
      0 ≤ cur.1 → cur.1 < cur.2 → cur.2 ≤ d →
      InBounds d l → List.Pairwise (fun a b => a.1 ≤ b.1) l →
      (∀ p ∈ l, cur.1 ≤ p.1) →
      ∃ e tail, merge_chain cur l = (cur.1, e) :: tail ∧
        Separated ((cur.1, e) :: tail) ∧ InBounds d ((cur.1, e) :: tail) := by
  intro l
  induction l with
  | nil =>
    intro cur h0 h1 h2 _ _ _
    refine ⟨cur.2, [], rfl, ?_, ?_⟩
    · exact List.pairwise_singleton _ _
    · intro p hp
      rw [List.mem_singleton] at hp
      subst hp
      exact ⟨h0, h1, h2⟩
  | cons iv rest ih =>
    intro cur h0 h1 h2 hb hp hle
    have hbx := hb iv (List.mem_cons_self _ _)
    have hbr : InBounds d rest := fun p hq => hb p (List.mem_cons_of_mem _ hq)
    have hpr : List.Pairwise (fun a b => a.1 ≤ b.1) rest := hp.of_cons
    have hiv_rest : ∀ p ∈ rest, iv.1 ≤ p.1 := fun p hq => List.rel_of_pairwise_cons hp hq
    by_cases hcase : iv.1 ≤ cur.2
    · have heq : merge_chain cur (iv :: rest) =
          merge_chain (cur.1, max cur.2 iv.2) rest := by
        show (if iv.1 ≤ cur.2 then merge_chain (cur.1, max cur.2 iv.2) rest
              else cur :: merge_chain iv rest) = _
        rw [if_pos hcase]
      obtain ⟨e, tail, he, hsep, hbnd⟩ :=
        ih (cur.1, max cur.2 iv.2) h0 (lt_max_of_lt_left h1)
          (max_le h2 hbx.2.2) hbr hpr
          (fun p hq => le_trans (hle iv (List.mem_cons_self _ _)) (hiv_rest p hq))
      exact ⟨e, tail, by rw [heq]; exact he, hsep, hbnd⟩
    · have hlt : cur.2 < iv.1 := not_le.mp hcase
      have heq : merge_chain cur (iv :: rest) = cur :: merge_chain iv rest := by
        show (if iv.1 ≤ cur.2 then merge_chain (cur.1, max cur.2 iv.2) rest
              else cur :: merge_chain iv rest) = _
        rw [if_neg hcase]
      obtain ⟨e, tail, he, hsep, hbnd⟩ :=
        ih iv hbx.1 hbx.2.1 hbx.2.2 hbr hpr hiv_rest
      refine ⟨cur.2, (iv.1, e) :: tail, ?_, ?_, ?_⟩
      · rw [heq, he]
      · refine List.Pairwise.cons ?_ hsep
        intro q hq
        rcases List.mem_cons.mp hq with hq | hq
        · subst hq
          exact hlt
        · have h1e : iv.1 < e := (hbnd (iv.1, e) (List.mem_cons_self _ _)).2.1
          have h2e : e < q.1 := List.rel_of_pairwise_cons hsep hq
          exact lt_trans hlt (lt_trans h1e h2e)
      · intro q hq
        rcases List.mem_cons.mp hq with hq | hq
        · subst hq
          exact ⟨h0, h1, h2⟩
        · exact hbnd q hq

theorem merge_core_normalized (d : ℚ) (l : List (ℚ × ℚ))
    (hb : InBounds d l) (hp : List.Pairwise (fun a b => a.1 ≤ b.1) l) :
    Separated (merge_core l) ∧ InBounds d (merge_core l) := by
  cases l with
  | nil => exact ⟨List.Pairwise.nil, fun p hp => absurd hp (List.not_mem_nil p)⟩
  | cons iv rest =>
    have hbx := hb iv (List.mem_cons_self _ _)
    obtain ⟨e, tail, he, hsep, hbnd⟩ :=
      merge_chain_spec d rest iv hbx.1 hbx.2.1 hbx.2.2
        (fun p hq => hb p (List.mem_cons_of_mem _ hq)) hp.of_cons
        (fun p hq => List.rel_of_pairwise_cons hp hq)
    have hmc : merge_core (iv :: rest) = merge_chain iv rest := rfl
    rw [hmc, he]
    exact ⟨hsep, hbnd⟩

theorem clamp_bounds (d : ℚ) (ivs : List SilenceInterval) :
    InBounds d (ivs.filterMap (clamp_iv d)) := by
  intro p hp
  rw [List.mem_filterMap] at hp
  obtain ⟨iv, _, hiv⟩ := hp
  rcases iv with ⟨s0, e0⟩
  rcases e0 with _ | e0 <;> simp only [clamp_iv] at hiv <;> split_ifs at hiv with hc <;>
    cases hiv
  · exact ⟨le_max_left 0 _, hc, le_refl d⟩
  · exact ⟨le_max_left 0 _, hc, min_le_left _ _⟩

theorem sort_pairs_sorted (l : List (ℚ × ℚ)) :
    List.Sorted (fun a b : ℚ × ℚ => a.1 ≤ b.1) (sort_pairs l) :=
  List.sorted_insertionSort _ l

theorem merge_overlaps_core_normalized (ivs : List SilenceInterval) (d : ℚ) :
    Separated (merge_overlaps_core ivs d) ∧ InBounds d (merge_overlaps_core ivs d) := by
  apply merge_core_normalized
  · intro p hp
    have hmem : p ∈ ivs.filterMap (clamp_iv d) := by
      have := List.mem_insertionSort (fun a b : ℚ × ℚ => a.1 ≤ b.1)
        (l := ivs.filterMap (clamp_iv d)) (x := p)
      exact this.mp hp
    exact clamp_bounds d ivs p hmem
  · exact sort_pairs_sorted _

theorem filterMap_self {α : Type} (f : α → Option α) (l : List α)
    (h : ∀ a ∈ l, f a = some a) : l.filterMap f = l := by
  induction l with
  | nil => rfl
  | cons a rest ih =>
    rw [List.filterMap_cons_some (h a (List.mem_cons_self _ _)),
      ih (fun b hb => h b (List.mem_cons_of_mem _ hb))]

theorem merge_chain_of_separated :
    ∀ (l : List (ℚ × ℚ)) (cur : ℚ × ℚ),
      (∀ p ∈ l, cur.2 < p.1) → Separated l → merge_chain cur l = cur :: l := by
  intro l
  induction l with
  | nil => intro cur _ _; rfl
  | cons iv rest ih =>
    intro cur hlt hsep
    have heq : merge_chain cur (iv :: rest) =
        (if iv.1 ≤ cur.2 then merge_chain (cur.1, max cur.2 iv.2) rest
         else cur :: merge_chain iv rest) := rfl
    rw [heq, if_neg (not_le.mpr (hlt iv (List.mem_cons_self _ _))),
      ih iv (fun p hq => List.rel_of_pairwise_cons hsep hq) hsep.of_cons]

theorem merge_core_of_separated (l : List (ℚ × ℚ)) (hsep : Separated l) :
    merge_core l = l := by
  cases l with
  | nil => rfl
  | cons iv rest =>
    have hmc : merge_core (iv :: rest) = merge_chain iv rest := rfl
    rw [hmc, merge_chain_of_separated rest iv (fun p hq => List.rel_of_pairwise_cons hsep hq) hsep.of_cons]

/-- C8: the Interval Normalizer is idempotent: running merge_overlaps on its
own output with the same duration yields the identical list. -/
theorem merge_overlaps_idempotent (xs : List SilenceInterval) (d : ℚ) :
    merge_overlaps (merge_overlaps xs d) d = merge_overlaps xs d := by
  obtain ⟨hsep, hb⟩ := merge_overlaps_core_normalized xs d
  have hfm : ((merge_overlaps_core xs d).map
      (fun p => (⟨p.1, some p.2⟩ : SilenceInterval))).filterMap (clamp_iv d) =
      merge_overlaps_core xs d := by
    rw [List.filterMap_map]
    apply filterMap_self
    intro p hp
    obtain ⟨h0, h1, h2⟩ := hb p hp
    show clamp_iv d ⟨p.1, some p.2⟩ = some p
    simp only [clamp_iv]
    rw [max_eq_right h0, min_eq_right h2, if_pos h1]
  have hsort : sort_pairs (merge_overlaps_core xs d) = merge_overlaps_core xs d := by
    apply List.Sorted.insertionSort_eq
    refine List.Pairwise.imp_of_mem ?_ hsep
    intro a b ha _ hab
    exact le_of_lt (lt_trans (hb a ha).2.1 hab)
  have hcore : merge_overlaps_core (merge_overlaps xs d) d = merge_overlaps_core xs d := by
    show merge_core (sort_pairs (((merge_overlaps_core xs d).map
        (fun p => (⟨p.1, some p.2⟩ : SilenceInterval))).filterMap (clamp_iv d))) = _
    rw [hfm, hsort]
    exact merge_core_of_separated _ hsep
  calc merge_overlaps (merge_overlaps xs d) d
      = (merge_overlaps_core (merge_overlaps xs d) d).map
          (fun p => (⟨p.1, some p.2⟩ : SilenceInterval)) := rfl
    _ = (merge_overlaps_core xs d).map
          (fun p => (⟨p.1, some p.2⟩ : SilenceInterval)) := by rw [hcore]
    _ = merge_overlaps xs d := rfl

theorem keep_walk_cover (m : ℚ) (hm : m ≤ 0) :
    ∀ (removes : List (ℚ × ℚ)) (cursor : ℚ),
      Separated removes → (∀ p ∈ removes, p.1 < p.2) →
      cursor ≤ (keep_walk m cursor removes).2 ∧
      (∀ t : ℚ, cursor ≤ t → t < (keep_walk m cursor removes).2 →
        (∃ k ∈ (keep_walk m cursor removes).1, k.1 ≤ t ∧ t < k.2) ∨
        (∃ r ∈ removes, r.1 ≤ t ∧ t < r.2)) ∧
      (∀ k ∈ (keep_walk m cursor removes).1,
        cursor ≤ k.1 ∧ k.1 < k.2 ∧ k.2 ≤ (keep_walk m cursor removes).2) ∧
      (∀ k ∈ (keep_walk m cursor removes).1, ∀ r ∈ removes, k.2 ≤ r.1 ∨ r.2 ≤ k.1) ∧
      (∀ r ∈ removes, r.2 ≤ (keep_walk m cursor removes).2) := by
  intro removes
  induction removes with
  | nil =>
    intro cursor _ _
    refine ⟨le_refl _, ?_, ?_, ?_, ?_⟩
    · intro t ht1 ht2
      exact absurd (lt_of_le_of_lt ht1 ht2) (lt_irrefl _)
    · intro k hk
      exact absurd hk (List.not_mem_nil _)
    · intro k hk
      exact absurd hk (List.not_mem_nil _)
    · intro r hr
      exact absurd hr (List.not_mem_nil _)
  | cons iv rest ih =>
    intro cursor hsep hprop
    have hiv : iv.1 < iv.2 := hprop iv (List.mem_cons_self _ _)
    have hsepr : ∀ r ∈ rest, iv.2 < r.1 := fun r hr => List.rel_of_pairwise_cons hsep hr
    obtain ⟨ih1, ih2, ih3, ih4, ih5⟩ :=
      ih (max cursor iv.2) hsep.of_cons (fun q hq => hprop q (List.mem_cons_of_mem _ hq))
    have hc1 : cursor ≤ max cursor iv.2 := le_max_left _ _
    have hc2 : iv.2 ≤ max cursor iv.2 := le_max_right _ _
    by_cases hA : cursor < iv.1
    · have heq : keep_walk m cursor (iv :: rest) =
          ((cursor, iv.1) :: (keep_walk m (max cursor iv.2) rest).1,
            (keep_walk m (max cursor iv.2) rest).2) := by
        show (if cursor < iv.1 ∧ m ≤ iv.1 - cursor
              then ((cursor, iv.1) :: (keep_walk m (max cursor iv.2) rest).1,
                (keep_walk m (max cursor iv.2) rest).2)
              else keep_walk m (max cursor iv.2) rest) = _
        rw [if_pos ⟨hA, by linarith⟩]
      rw [heq]
      refine ⟨by dsimp only; linarith, ?_, ?_, ?_, ?_⟩
      · intro t ht1 ht2
        by_cases ht3 : t < iv.1
        · exact Or.inl ⟨(cursor, iv.1), List.mem_cons_self _ _, ht1, ht3⟩
        · by_cases ht4 : t < iv.2
          · exact Or.inr ⟨iv, List.mem_cons_self _ _, not_lt.mp ht3, ht4⟩
          · have hge : max cursor iv.2 ≤ t := max_le ht1 (not_lt.mp ht4)
            rcases ih2 t hge ht2 with ⟨k, hk, hkt⟩ | ⟨r, hr, hrt⟩
            · exact Or.inl ⟨k, List.mem_cons_of_mem _ hk, hkt⟩
            · exact Or.inr ⟨r, List.mem_cons_of_mem _ hr, hrt⟩
      · intro k hk
        rcases List.mem_cons.mp hk with hk | hk
        · subst hk
          have := ih1
          exact ⟨le_refl _, hA, by dsimp only; linarith⟩
        · obtain ⟨ha, hb', hc⟩ := ih3 k hk
          exact ⟨le_trans hc1 ha, hb', hc⟩
      · intro k hk r hr
        rcases List.mem_cons.mp hk with hk | hk
        · subst hk
          rcases List.mem_cons.mp hr with hr | hr
          · subst hr
            exact Or.inl (le_refl _)
          · exact Or.inl (by dsimp only; linarith [hsepr r hr])
        · rcases List.mem_cons.mp hr with hr | hr
          · subst hr
            exact Or.inr (le_trans hc2 (ih3 k hk).1)
          · exact ih4 k hk r hr
      · intro r hr
        rcases List.mem_cons.mp hr with hr | hr
        · subst hr
          exact le_trans hc2 ih1
        · exact ih5 r hr
    · have heq : keep_walk m cursor (iv :: rest) = keep_walk m (max cursor iv.2) rest := by
        show (if cursor < iv.1 ∧ m ≤ iv.1 - cursor
              then ((cursor, iv.1) :: (keep_walk m (max cursor iv.2) rest).1,
                (keep_walk m (max cursor iv.2) rest).2)
              else keep_walk m (max cursor iv.2) rest) = _
        rw [if_neg (fun hcond => hA hcond.1)]
      rw [heq]
      have hA' : iv.1 ≤ cursor := not_lt.mp hA
      refine ⟨le_trans hc1 ih1, ?_, ?_, ?_, ?_⟩
      · intro t ht1 ht2
        by_cases ht3 : t < max cursor iv.2
        · have htiv : t < iv.2 := by
            rcases lt_max_iff.mp ht3 with h | h
            · exact absurd h (not_lt.mpr ht1)
            · exact h
          exact Or.inr ⟨iv, List.mem_cons_self _ _, le_trans hA' ht1, htiv⟩
        · rcases ih2 t (not_lt.mp ht3) ht2 with ⟨k, hk, hkt⟩ | ⟨r, hr, hrt⟩
          · exact Or.inl ⟨k, hk, hkt⟩
          · exact Or.inr ⟨r, List.mem_cons_of_mem _ hr, hrt⟩
      · intro k hk
        obtain ⟨ha, hb', hc⟩ := ih3 k hk
        exact ⟨le_trans hc1 ha, hb', hc⟩
      · intro k hk r hr
        rcases List.mem_cons.mp hr with hr | hr
        · subst hr
          exact Or.inr (le_trans hc2 (ih3 k hk).1)
        · exact ih4 k hk r hr
      · intro r hr
        rcases List.mem_cons.mp hr with hr | hr
        · subst hr
          exact le_trans hc2 ih1
        · exact ih5 r hr

/-- C1 counterexample: with silences [(1, 2)], duration 10, pad 0 and
min_keep 2 the candidate keep [0, 1) is dropped for being shorter than
min_keep, so the point 1/2 lies in [0, 10] but in neither the keep segments
nor the removal set: the union does not cover [0, duration]. -/
theorem complement_cover_cex :
    (0 : ℚ) ≤ 1/2 ∧ (1 : ℚ)/2 < 10 ∧
    ¬ ((∃ k ∈ invert_to_keeps [⟨1, some 2⟩] 10 0 2, k.1 ≤ (1 : ℚ)/2 ∧ (1 : ℚ)/2 < k.2) ∨
       (∃ r ∈ removal_set [⟨1, some 2⟩] 10 0, r.1 ≤ (1 : ℚ)/2 ∧ (1 : ℚ)/2 < r.2)) := by
  have h1 : invert_to_keeps [⟨1, some 2⟩] 10 0 2 = [(2, 10)] := by
    norm_num [invert_to_keeps, removal_set, keep_walk, merge_overlaps_core, merge_core,
      merge_chain, sort_pairs, List.insertionSort, List.orderedInsert, clamp_iv, pad_clamp,
      List.filterMap]
  have h2 : removal_set [⟨1, some 2⟩] 10 0 = [(1, 2)] := by
    norm_num [removal_set, merge_overlaps_core, merge_core, merge_chain, sort_pairs,
      List.insertionSort, List.orderedInsert, clamp_iv, pad_clamp, List.filterMap]
  rw [h1, h2]
  norm_num

/-- C1 (amended): for min_keep ≤ 0 the complement property holds: every
point of [0, duration) lies in a keep segment or in the padded/merged
removal set, and keep segments and removal intervals never overlap.  (With a
positive min_keep the resolver deliberately drops short candidate keeps,
leaving covered-by-neither gaps.) -/
theorem complement_cover (s : List SilenceInterval) (d p m : ℚ) (hm : m ≤ 0) :
    (∀ t : ℚ, 0 ≤ t → t < d →
      (∃ k ∈ invert_to_keeps s d p m, k.1 ≤ t ∧ t < k.2) ∨
      (∃ r ∈ removal_set s d p, r.1 ≤ t ∧ t < r.2)) ∧
    (∀ k ∈ invert_to_keeps s d p m, ∀ r ∈ removal_set s d p, k.2 ≤ r.1 ∨ r.2 ≤ k.1) := by
  obtain ⟨hsep, hb⟩ := merge_overlaps_core_normalized (s.filterMap (pad_clamp d p)) d
  have hprop : ∀ q ∈ removal_set s d p, q.1 < q.2 := fun q hq => (hb q hq).2.1
  obtain ⟨hw1, hw2, hw3, hw4, hw5⟩ := keep_walk_cover m hm (removal_set s d p) 0 hsep hprop
  have hiv : invert_to_keeps s d p m =
      (if (keep_walk m 0 (removal_set s d p)).2 < d ∧
          m ≤ d - (keep_walk m 0 (removal_set s d p)).2
       then (keep_walk m 0 (removal_set s d p)).1 ++
         [((keep_walk m 0 (removal_set s d p)).2, d)]
       else (keep_walk m 0 (removal_set s d p)).1) := rfl
  by_cases hcd : (keep_walk m 0 (removal_set s d p)).2 < d
  · have hcond : (keep_walk m 0 (removal_set s d p)).2 < d ∧
        m ≤ d - (keep_walk m 0 (removal_set s d p)).2 := ⟨hcd, by linarith⟩
    rw [hiv, if_pos hcond]
    constructor
    · intro t ht0 htd
      by_cases htw : t < (keep_walk m 0 (removal_set s d p)).2
      · rcases hw2 t ht0 htw with ⟨k, hk, hkt⟩ | ⟨r, hr, hrt⟩
        · exact Or.inl ⟨k, List.mem_append_left _ hk, hkt⟩
        · exact Or.inr ⟨r, hr, hrt⟩
      · exact Or.inl ⟨((keep_walk m 0 (removal_set s d p)).2, d),
          List.mem_append_right _ (List.mem_singleton_self _), not_lt.mp htw, htd⟩
    · intro k hk r hr
      rcases List.mem_append.mp hk with hk | hk
      · exact hw4 k hk r hr
      · rw [List.mem_singleton] at hk
        subst hk
        exact Or.inr (hw5 r hr)
  · rw [hiv, if_neg (fun hcond => hcd hcond.1)]
    constructor
    · intro t ht0 htd
      exact hw2 t ht0 (lt_of_lt_of_le htd (not_lt.mp hcd))
    · intro k hk r hr
      exact hw4 k hk r hr

/-- C1 witness: at silences [(2, 3)], duration 10, pad 0, min_keep 0 the
complement property holds. -/
theorem complement_cover_witness :
    (∀ t : ℚ, 0 ≤ t → t < 10 →
      (∃ k ∈ invert_to_keeps [⟨2, some 3⟩] 10 0 0, k.1 ≤ t ∧ t < k.2) ∨
      (∃ r ∈ removal_set [⟨2, some 3⟩] 10 0, r.1 ≤ t ∧ t < r.2)) ∧
    (∀ k ∈ invert_to_keeps [⟨2, some 3⟩] 10 0 0,
      ∀ r ∈ removal_set [⟨2, some 3⟩] 10 0, k.2 ≤ r.1 ∨ r.2 ≤ k.1) :=
  complement_cover [⟨2, some 3⟩] 10 0 0 (le_refl 0)

theorem clip_items_from_frames (fps : ℚ) (hfps : 0 < fps) :
    ∀ (keeps : List (ℚ × ℚ)) (i : ℕ) (cursor : ℚ), (∀ p ∈ keeps, p.1 < p.2) →
      (List.Chain' (fun a b => a.endF = b.startF) (clip_items_from fps i cursor keeps) ∧
        ∀ c ∈ clip_items_from fps i cursor keeps, c.startF ≤ c.endF) ∧
      (∀ c ∈ (clip_items_from fps i cursor keeps).head?,
        c.startF = sec_to_frames cursor fps) := by
  intro keeps
  induction keeps with
  | nil =>
    intro i cursor _
    refine ⟨⟨List.chain'_nil, ?_⟩, ?_⟩
    · intro c hc
      exact absurd hc (List.not_mem_nil _)
    · intro c hc
      simp [clip_items_from] at hc
  | cons q rest ih =>
    obtain ⟨ks, ke⟩ := q
    intro i cursor hk
    have hp : ks < ke := hk (ks, ke) (List.mem_cons_self _ _)
    have hseg : ¬ (max 0 (ke - ks) ≤ 0) := by
      push_neg
      exact lt_max_of_lt_right (by linarith)
    have hrest : ∀ p ∈ rest, p.1 < p.2 := fun p hq => hk p (List.mem_cons_of_mem _ hq)
    obtain ⟨⟨ihc, ihm⟩, ihh⟩ := ih (i + 1) (cursor + max 0 (ke - ks)) hrest
    have heq : clip_items_from fps i cursor ((ks, ke) :: rest) =
        { vId := "clipitem-v" ++ toString i
          aId := "clipitem-a" ++ toString i
          startF := sec_to_frames cursor fps
          endF := sec_to_frames (cursor + max 0 (ke - ks)) fps
          inF := sec_to_frames ks fps
          outF := sec_to_frames ke fps } ::
          clip_items_from fps (i + 1) (cursor + max 0 (ke - ks)) rest := by
      show (if max 0 (ke - ks) ≤ 0 then clip_items_from fps (i + 1) cursor rest
            else _ :: clip_items_from fps (i + 1) (cursor + max 0 (ke - ks)) rest) = _
      rw [if_neg hseg]
    have hmono : sec_to_frames cursor fps ≤ sec_to_frames (cursor + max 0 (ke - ks)) fps := by
      apply pyRound_mono
      have h0 : (0 : ℚ) ≤ max 0 (ke - ks) := le_max_left 0 _
      have : cursor ≤ cursor + max 0 (ke - ks) := by linarith
      exact mul_le_mul_of_nonneg_right this (le_of_lt hfps)
    rw [heq]
    refine ⟨⟨?_, ?_⟩, ?_⟩
    · refine List.Chain'.cons' ihc ?_
      intro b hb
      have := ihh b hb
      rw [this]
    · intro c hc
      rcases List.mem_cons.mp hc with hc | hc
      · subst hc
        exact hmono
      · exact ihm c hc
    · intro c hc
      rw [List.head?_cons, Option.mem_some_iff] at hc
      subst hc
      rfl

/-- C5: for keep segments of strictly positive length and a positive
effective frame rate, successive clip items are non-decreasing and
contiguous: each clip ends on the frame the next one starts, and no clip
ends before it starts. -/
theorem clip_frames_contiguous (keeps : List (ℚ × ℚ)) (fps_real : ℚ)
    (hfps : 0 < fps_real) (hk : ∀ p ∈ keeps, p.1 < p.2) :
    List.Chain' (fun a b => a.endF = b.startF) (clip_items keeps fps_real) ∧
    ∀ c ∈ clip_items keeps fps_real, c.startF ≤ c.endF :=
  (clip_items_from_frames fps_real hfps keeps 1 0 hk).1

/-- C5 witness: two concrete keep segments produce contiguous,
non-decreasing clip frames. -/
theorem clip_frames_contiguous_witness :
    List.Chain' (fun a b => a.endF = b.startF)
      (clip_items [((0 : ℚ), (1 : ℚ)), ((2 : ℚ), (3 : ℚ))] 30) ∧
    ∀ c ∈ clip_items [((0 : ℚ), (1 : ℚ)), ((2 : ℚ), (3 : ℚ))] 30,
      c.startF ≤ c.endF :=
  clip_frames_contiguous [(0, 1), (2, 3)] 30 (by norm_num) (by norm_num)

end CutSilence
